import Mathlib

/-!
Verification of the result-parsing routine of techystudent/mathmastersolver.

The function under study is `parseResult` in `src/App.tsx` (lines 143-246):
a heuristic that turns a raw markdown answer string into a structured
result (a list of titled solution steps, a final-answer string, and a
fallback flag).  The JavaScript string and regular-expression operations
are embedded shallowly over `List Char`:

* JS `\s` is modelled by `isWS` (the ASCII whitespace code points; the
  source only ever feeds model-generated markdown, and every concrete
  input used below is ASCII);
* a JS `string.match(regex)` returning the first match is modelled by
  `findFrom` applied to a per-position matcher that returns the length of
  the match at that position;
* a JS `string.split(/(?:^|\n)(?=P)/)` (split before every line whose
  start satisfies the lookahead `P`, the matched `\n` being consumed, a
  zero-width match at index 0 being discarded) is modelled by `splitLA`;
* JS `trim` is modelled by `trimL` (drop whitespace at both ends).

Each regular expression of the source is translated into an explicit
matcher; greedy subpatterns such as `\s*` followed by a letter consume
the maximal run (no shorter run can succeed because the character classes
involved are disjoint), which is how the matchers below compute them.
-/

namespace MathMaster

/-- JS whitespace class `\s`, restricted to the ASCII code points
(space, tab, line feed, carriage return, vertical tab, form feed). -/
def isWS (c : Char) : Bool :=
  c == ' ' || c == '\t' || c == '\n' || c == '\r' || c == '\x0b' || c == '\x0c'

/-- JS `trim()`: remove leading and trailing whitespace. -/
def trimL (l : List Char) : List Char :=
  List.rdropWhile isWS (l.dropWhile isWS)

/-- Case-insensitive prefix test (the `/i` regex flag): the second list
starts with the first, comparing characters through `Char.toLower`. -/
def ciStartsWith : List Char → List Char → Bool
  | [], _ => true
  | _ :: _, [] => false
  | p :: ps, c :: cs => (Char.toLower c == Char.toLower p) && ciStartsWith ps cs

/-- Length of the maximal leading whitespace run (greedy `\s*`). -/
def wsCount (l : List Char) : Nat := (l.takeWhile isWS).length

/-- Length of the maximal leading digit run (greedy `\d*`). -/
def digitCount (l : List Char) : Nat := (l.takeWhile Char.isDigit).length

/-- One attempt, at the head of `l`, of the regex
`/(?:##|\*\*)\s*Final Answer/i` (App.tsx line 154); returns the length of
the match when it succeeds. -/
def markerFinalLen (l : List Char) : Option Nat :=
  match l with
  | c1 :: c2 :: rest =>
    if (c1 == '#' && c2 == '#') || (c1 == '*' && c2 == '*') then
      let k := wsCount rest
      if ciStartsWith "final answer".data (rest.drop k) then some (2 + k + 12)
      else none
    else none
  | _ => none

/-- One attempt, at the head of `l`, of the regex `/##\s*Solution Steps/i`
(App.tsx line 165); returns the length of the match when it succeeds. -/
def markerStepsLen (l : List Char) : Option Nat :=
  match l with
  | c1 :: c2 :: rest =>
    if c1 == '#' && c2 == '#' then
      let k := wsCount rest
      if ciStartsWith "solution steps".data (rest.drop k) then some (2 + k + 14)
      else none
    else none
  | _ => none

/-- JS `string.match(regex)`: try the per-position matcher `f` at every
index from the left and return the first index together with the length
of the match there. -/
def findFrom (f : List Char → Option Nat) : List Char → Option (Nat × Nat)
  | [] => (f []).map (fun n => (0, n))
  | c :: rest =>
    match f (c :: rest) with
    | some n => some (0, n)
    | none => (findFrom f rest).map (fun q => (q.1 + 1, q.2))

/-- Lookahead `###\s+` (App.tsx lines 178-179). -/
def laHeading (l : List Char) : Bool :=
  match l with
  | c1 :: c2 :: c3 :: c4 :: _ => c1 == '#' && c2 == '#' && c3 == '#' && isWS c4
  | _ => false

/-- Scan for a closing `**` reachable by `.*?` — that is, occurring before
any line terminator (`.` does not match `\n` or `\r`). -/
def hasBoldClose : List Char → Bool
  | [] => false
  | [_] => false
  | c1 :: c2 :: rest =>
    if c1 == '*' && c2 == '*' then true
    else if c1 == '\n' || c1 == '\r' then false
    else hasBoldClose (c2 :: rest)

/-- Lookahead `\*\*(?:Step|Step\s+\d+).*?\*\*` with `/i` (App.tsx lines
182-183).  The first alternative `Step` lets `.*?` search the current
line; when that fails, the second alternative `Step\s+\d+` may cross a
line boundary inside `\s+` before `.*?` searches for the closing `**`. -/
def laBold (l : List Char) : Bool :=
  match l with
  | c1 :: c2 :: rest =>
    c1 == '*' && c2 == '*' && ciStartsWith "step".data rest &&
      (let r4 := rest.drop 4
       hasBoldClose r4 ||
         (wsCount r4 != 0 &&
           (let r5 := r4.drop (wsCount r4)
            digitCount r5 != 0 && hasBoldClose (r5.drop (digitCount r5)))))
  | _ => false

/-- Lookahead `Step\s+\d+[:.]` with `/i` (App.tsx lines 186-187). -/
def laStepN (l : List Char) : Bool :=
  ciStartsWith "step".data l &&
    (let r := l.drop 4
     wsCount r != 0 &&
       (let r2 := r.drop (wsCount r)
        digitCount r2 != 0 &&
          (match r2.drop (digitCount r2) with
           | c :: _ => c == ':' || c == '.'
           | [] => false)))

/-- Lookahead `\d+\.\s+` — the pattern the numbered-list SPLIT uses
(App.tsx line 191); note it does not require an uppercase letter. -/
def laNumSplit (l : List Char) : Bool :=
  digitCount l != 0 &&
    (match l.drop (digitCount l) with
     | c :: rest => c == '.' && wsCount rest != 0
     | [] => false)

/-- Pattern `\d+\.\s+[A-Z]` — the trigger the numbered-list TEST uses
(App.tsx line 190); this one does require an uppercase letter. -/
def laNumTest (l : List Char) : Bool :=
  digitCount l != 0 &&
    (match l.drop (digitCount l) with
     | c :: rest =>
       c == '.' &&
         (wsCount rest != 0 &&
           (match rest.drop (wsCount rest) with
            | c2 :: _ => c2.isUpper
            | [] => false))
     | [] => false)

/-- `regex.test` for `/(?:^|\n)P/`: does `P` hold right after some
newline of `l`? -/
def testAfterNl (P : List Char → Bool) : List Char → Bool
  | [] => false
  | c :: rest => (c == '\n' && P rest) || testAfterNl P rest

/-- `regex.test` for `/(?:^|\n)P/`: `P` holds at the start of the string
or right after some newline. -/
def testLine (P : List Char → Bool) (l : List Char) : Bool :=
  P l || testAfterNl P l

/-- Worker for `splitLA`: from index 1 onwards, split before every
newline whose continuation satisfies the lookahead (the newline itself is
consumed by the match). -/
def splitGo (P : List Char → Bool) (acc : List Char) : List Char → List (List Char)
  | [] => [acc.reverse]
  | c :: rest =>
    if c == '\n' && P rest then acc.reverse :: splitGo P [] rest
    else splitGo P (c :: acc) rest

/-- JS `string.split(/(?:^|\n)(?=P)/)`. At index 0 a zero-width `^` match
is discarded by the split algorithm (it would end where the current
segment starts); a newline at index 0 acts as a separator only when the
zero-width alternative did not match there first. -/
def splitLA (P : List Char → Bool) (l : List Char) : List (List Char) :=
  match l with
  | [] => [[]]
  | c :: rest =>
    if c == '\n' && !P (c :: rest) && P rest then [] :: splitGo P [] rest
    else splitGo P [c] rest

/-- `.filter(s => s.trim())` applied to the split segments (App.tsx lines
179, 183, 187, 191): keep the segments that are not blank. -/
def keepNonBlank (ls : List (List Char)) : List (List Char) :=
  ls.filter (fun s => !(trimL s).isEmpty)

/-- Step splitting (App.tsx lines 173-196): the four heuristics tried in
priority order, else the whole content as one block. -/
def smartSplit (c : List Char) : List (List Char) :=
  if testLine laHeading c then keepNonBlank (splitLA laHeading c)
  else if testLine laBold c then keepNonBlank (splitLA laBold c)
  else if testLine laStepN c then keepNonBlank (splitLA laStepN c)
  else if testLine laNumTest c then keepNonBlank (splitLA laNumSplit c)
  else [c]

/-- JS `string.split('\n')`. -/
def splitNl : List Char → List (List Char)
  | [] => [[]]
  | c :: rest =>
    if c == '\n' then [] :: splitNl rest
    else
      match splitNl rest with
      | [] => [[c]]
      | x :: xs => (c :: x) :: xs

/-- JS `array.join('\n')`. -/
def joinNl : List (List Char) → List Char
  | [] => []
  | [x] => x
  | x :: y :: xs => x ++ '\n' :: joinNl (y :: xs)

/-- `lines[0].trim()` where `lines = rawStep.trim().split('\n')`
(App.tsx lines 200-201). -/
def headerOf (seg : List Char) : List Char :=
  trimL ((splitNl (trimL seg)).headD [])

/-- `lines.slice(1).join('\n').trim()` (App.tsx line 202). -/
def bodyOf (seg : List Char) : List Char :=
  trimL (joinNl ((splitNl (trimL seg)).drop 1))

/-- `header.replace(/^###\s*/, '')` (App.tsx line 206). -/
def stripHeading (l : List Char) : List Char :=
  match l with
  | c1 :: c2 :: c3 :: rest =>
    if c1 == '#' && c2 == '#' && c3 == '#' then rest.dropWhile isWS
    else l
  | _ => l

/-- `.replace(/\*\*/g, '')`: delete every non-overlapping `**`, scanning
left to right (App.tsx line 206). -/
def removeBoldAll : List Char → List Char
  | [] => []
  | [c] => [c]
  | c1 :: c2 :: rest =>
    if c1 == '*' && c2 == '*' then removeBoldAll rest
    else c1 :: removeBoldAll (c2 :: rest)

/-- Character class `[:.\s-]` of the prefix regex (App.tsx line 210). -/
def isSepCh (c : Char) : Bool := c == ':' || c == '.' || isWS c || c == '-'

/-- Length matched, at the head of `l`, by the alternation
`(?:Step\s*\d+|Step\s+[A-Z]|\d+\.)` with `/i` (so `[A-Z]` also matches
lowercase letters), alternatives tried in order (App.tsx line 210). -/
def prefixAltLen (l : List Char) : Option Nat :=
  if ciStartsWith "step".data l then
    let r := l.drop 4
    let w := wsCount r
    let r2 := r.drop w
    let d := digitCount r2
    if d != 0 then some (4 + w + d)
    else if w != 0 then
      match r2 with
      | c :: _ => if c.isAlpha then some (4 + w + 1) else none
      | [] => none
    else none
  else
    let d := digitCount l
    if d != 0 then
      match l.drop d with
      | c :: _ => if c == '.' then some (d + 1) else none
      | [] => none
    else none

/-- Length matched, at the head of `l`, by the full prefix regex
`/^(?:Step\s*\d+|Step\s+[A-Z]|\d+\.)[:.\s-]*/i` (App.tsx line 210). -/
def prefixLen (l : List Char) : Option Nat :=
  (prefixAltLen l).map (fun n => n + ((l.drop n).takeWhile isSepCh).length)

/-- Title cleaning (App.tsx lines 206-215): strip a leading `###`, delete
all `**`, and strip a recognised step/number prefix when present. -/
def cleanTitle (header : List Char) : List Char :=
  let t := removeBoldAll (stripHeading header)
  match prefixLen t with
  | some n => trimL (t.drop n)
  | none => t

/-- Per-step normalisation (App.tsx lines 198-231): first line is the
header, the rest the content; an empty content with a non-empty title
demotes the title to the content under the placeholder "Explanation"; an
empty title becomes "Step Details". -/
def processStep (seg : List Char) : List Char × List Char :=
  if (bodyOf seg).isEmpty && !(cleanTitle (headerOf seg)).isEmpty then
    ("Explanation".data, cleanTitle (headerOf seg))
  else if (cleanTitle (headerOf seg)).isEmpty then
    ("Step Details".data, bodyOf seg)
  else (cleanTitle (headerOf seg), bodyOf seg)

/-- `rawSteps.map(...).filter(s => s.content && s.content.length > 0)`
(App.tsx lines 198, 232). -/
def extractSteps (c : List Char) : List (List Char × List Char) :=
  ((smartSplit c).map processStep).filter (fun s => !s.2.isEmpty)

/-- One parsed step: `{ title, content }`. -/
structure SolutionStep where
  title : String
  content : String
deriving Repr, DecidableEq

/-- The result structure built by `parseResult` (App.tsx lines 144-148). -/
structure ParsedResult where
  steps : List SolutionStep
  finalAnswer : String
  fallback : Bool
deriving Repr, DecidableEq

/-- `.replace(/^[:\s*]+/, '')` (App.tsx line 160). -/
def stripAnswerLead (l : List Char) : List Char :=
  l.dropWhile (fun c => c == ':' || isWS c || c == '*')

/-- Final-answer extraction (App.tsx lines 152-162): the pair
`(finalAnswer, stepsText)`. -/
def finalSplit (t : List Char) : List Char × List Char :=
  match findFrom markerFinalLen t with
  | some (i, len) => (trimL (stripAnswerLead (t.drop (i + len))), trimL (t.take i))
  | none => ([], t)

/-- Steps-section isolation (App.tsx lines 164-171). -/
def contentToParse (stepsText : List Char) : List Char :=
  match findFrom markerStepsLen stepsText with
  | some (i, len) => trimL (stepsText.drop (i + len))
  | none => stepsText

/-- Final assembly (App.tsx lines 198-245): retained steps, or the whole
content as one "Analysis" step, or the fallback flag. -/
def assemble (fa c : List Char) : ParsedResult :=
  if (extractSteps c).isEmpty then
    if !(trimL c).isEmpty then
      ⟨[⟨"Analysis", String.mk c⟩], String.mk fa, false⟩
    else if fa.isEmpty then ⟨[], String.mk fa, true⟩
    else ⟨[], String.mk fa, false⟩
  else
    ⟨(extractSteps c).map (fun s => ⟨String.mk s.1, String.mk s.2⟩),
      String.mk fa, false⟩

/-- `parseResult` (App.tsx lines 143-246). -/
def parseResult (text : String) : Option ParsedResult :=
  if text.data.isEmpty then none
  else some (assemble (finalSplit text.data).1
                      (contentToParse (finalSplit text.data).2))

/-- The step-delimiter strategy of the spec (design note §9): one of the
four heuristics, or none. -/
inductive StepStrategy where
  | heading
  | bold
  | stepWord
  | numbered
  | whole
deriving Repr, DecidableEq

/-- Following the spec: the strategy is selected once per input by
first-match precedence over the four trigger patterns. -/
def specSelectStrategy (c : List Char) : StepStrategy :=
  if testLine laHeading c then StepStrategy.heading
  else if testLine laBold c then StepStrategy.bold
  else if testLine laStepN c then StepStrategy.stepWord
  else if testLine laNumTest c then StepStrategy.numbered
  else StepStrategy.whole

/-- Following the spec: the selected strategy is then applied uniformly —
a single split routine parameterised by the chosen pattern, or the whole
content as a single unsegmented block. -/
def specStrategySplit : StepStrategy → List Char → List (List Char)
  | StepStrategy.heading, c => keepNonBlank (splitLA laHeading c)
  | StepStrategy.bold, c => keepNonBlank (splitLA laBold c)
  | StepStrategy.stepWord, c => keepNonBlank (splitLA laStepN c)
  | StepStrategy.numbered, c => keepNonBlank (splitLA laNumSplit c)
  | StepStrategy.whole, c => [c]

/-! ### Theorems -/

/-! ### Helper lemmas -/

/-- A string is "" exactly when its character list is empty. -/
theorem mk_eq_empty {l : List Char} : String.mk l = "" ↔ l = [] := by
  constructor
  · intro h
    have h2 := congrArg String.data h
    simpa using h2
  · intro h
    subst h
    rfl

theorem data_eq_nil_iff (s : String) : s.data = [] ↔ s = "" := by
  cases s with
  | mk d =>
    constructor
    · intro h
      subst h
      rfl
    · intro h
      have := congrArg String.data h
      simpa using this

/-- The final-assembly step always stores the extracted final answer. -/
theorem assemble_finalAnswer (fa c : List Char) :
    (assemble fa c).finalAnswer = String.mk fa := by
  unfold assemble
  split
  · split
    · rfl
    · split
      · rfl
      · rfl
  · rfl

theorem parseResult_eq_assemble (text : String) (h : text ≠ "") :
    parseResult text =
      some (assemble (finalSplit text.data).1
                     (contentToParse (finalSplit text.data).2)) := by
  have hd : text.data.isEmpty = false := by
    simp only [Bool.eq_false_iff, ne_eq, List.isEmpty_iff]
    intro hnil
    exact h ((data_eq_nil_iff text).mp hnil)
  unfold parseResult
  rw [hd]
  simp

/-! ### Claim theorems: C2, C3, C8 -/

/-- C2: `parseResult` returns null (none) if and only if its input string
is empty; for every non-empty input it returns a `ParsedResult` (the
embedding is a total function, so no exception can be raised). -/
theorem parseResult_none_iff_empty (text : String) :
    parseResult text = none ↔ text = "" := by
  constructor
  · intro h
    unfold parseResult at h
    split at h
    · rename_i he
      exact (data_eq_nil_iff text).mp (List.isEmpty_iff.mp he)
    · exact absurd h (by simp)
  · intro h
    subst h
    rfl

/-- C3: on the canonical well-formed input the parser returns exactly the
two titled steps and the final answer "42", with no fallback. -/
theorem parseResult_worked_example :
    parseResult "## Solution Steps\n### Step 1: Setup\nDo X.\n### Step 2: Solve\nDo Y.\n## Final Answer\n42" =
      some ⟨[⟨"Setup", "Do X."⟩, ⟨"Solve", "Do Y."⟩], "42", false⟩ := by
  decide

/-- C8: `parseResult` is a pure function of its input string, hence two
calls on identical input yield structurally identical results. -/
theorem parseResult_deterministic (text : String) :
    parseResult text = parseResult text := rfl

theorem assemble_invariant (fa c : List Char) :
    ((assemble fa c).fallback = true →
       (assemble fa c).steps = [] ∧ (assemble fa c).finalAnswer = "") ∧
    ((assemble fa c).fallback = false →
       (assemble fa c).steps ≠ [] ∨ (assemble fa c).finalAnswer ≠ "") := by
  unfold assemble
  split
  · split
    · refine ⟨fun h => absurd h (by simp), fun _ => Or.inl (by simp)⟩
    · split
      · rename_i hfa
        refine ⟨fun _ => ⟨rfl, ?_⟩, fun h => absurd h (by simp)⟩
        have : fa = [] := List.isEmpty_iff.mp hfa
        subst this
        rfl
      · rename_i hfa
        refine ⟨fun h => absurd h (by simp), fun _ => Or.inr ?_⟩
        intro hmk
        exact hfa (by simp [mk_eq_empty.mp hmk])
  · rename_i hne
    refine ⟨fun h => absurd h (by simp), fun _ => Or.inl ?_⟩
    intro hmapnil
    simp only [List.map_eq_nil_iff] at hmapnil
    exact hne (by simp [hmapnil])

/-- C1: every `ParsedResult` produced by `parseResult` satisfies the
invariant: when `fallback` is true both `steps` and `finalAnswer` are
empty, and when `fallback` is false at least one of them is non-empty. -/
theorem parseResult_fallback_invariant (text : String) (p : ParsedResult)
    (hp : parseResult text = some p) :
    (p.fallback = true → p.steps = [] ∧ p.finalAnswer = "") ∧
    (p.fallback = false → p.steps ≠ [] ∨ p.finalAnswer ≠ "") := by
  unfold parseResult at hp
  split at hp
  · exact absurd hp (by simp)
  · have hpe : p = assemble (finalSplit text.data).1
        (contentToParse (finalSplit text.data).2) := by
      injection hp with h
      exact h.symm
    rw [hpe]
    exact assemble_invariant _ _

/-- Witness for C1 at the blank input " ", whose result has
`fallback = true`. -/
theorem parseResult_fallback_invariant_witness :
    ([] : List SolutionStep) = [] ∧ ("" : String) = "" :=
  (parseResult_fallback_invariant " " ⟨[], "", true⟩ (by decide)).1 rfl

theorem processStep_title_ne (seg : List Char) : (processStep seg).1 ≠ [] := by
  unfold processStep
  split
  · simp
  · split
    · simp
    · rename_i h2
      simpa using h2

/-- C10: every step in a returned result has a non-empty title (the code
substitutes "Step Details" for an empty cleaned title, retitles the
demoted single-line step "Explanation", and titles the synthesized
whole-content step "Analysis"). -/
theorem parseResult_step_titles_nonempty (text : String) (p : ParsedResult)
    (hp : parseResult text = some p) :
    ∀ s ∈ p.steps, s.title ≠ "" := by
  unfold parseResult at hp
  split at hp
  · exact absurd hp (by simp)
  · have hpe : p = assemble (finalSplit text.data).1
        (contentToParse (finalSplit text.data).2) := by
      injection hp with h
      exact h.symm
    rw [hpe]
    intro s hs
    unfold assemble at hs
    split at hs
    · split at hs
      · simp only [List.mem_singleton] at hs
        subst hs
        show ("Analysis" : String) ≠ ""
        decide
      · split at hs <;> simp at hs
    · simp only [List.mem_map] at hs
      obtain ⟨x, hx, hxe⟩ := hs
      have hx1 : x.1 ≠ [] := by
        unfold extractSteps at hx
        simp only [List.mem_filter, List.mem_map] at hx
        obtain ⟨⟨seg, _, hseg⟩, _⟩ := hx.imp_left id
        rw [← hseg]
        exact processStep_title_ne seg
      rw [← hxe]
      simp only [ne_eq, mk_eq_empty]
      exact hx1

/-- Witness for C10 on a concrete parse. -/
theorem parseResult_step_titles_nonempty_witness :
    ("Explanation" : String) ≠ "" :=
  parseResult_step_titles_nonempty "It is simple."
    ⟨[⟨"Explanation", "It is simple."⟩], "", false⟩ (by decide)
    ⟨"Explanation", "It is simple."⟩ (by simp)

/-- C5: the source's step splitting refines the spec's strategy model:
exactly one heuristic is selected by first-match priority and applied
uniformly, the level-3 heading pattern pre-empting all lower-priority
patterns, and no match at all keeping the content as one block. -/
theorem smartSplit_strategy_refinement (c : List Char) :
    smartSplit c = specStrategySplit (specSelectStrategy c) c := by
  unfold smartSplit specSelectStrategy
  by_cases h1 : testLine laHeading c = true
  · simp [h1, specStrategySplit]
  · by_cases h2 : testLine laBold c = true
    · simp [h1, h2, specStrategySplit]
    · by_cases h3 : testLine laStepN c = true
      · simp [h1, h2, h3, specStrategySplit]
      · by_cases h4 : testLine laNumTest c = true
        · simp [h1, h2, h3, h4, specStrategySplit]
        · simp [h1, h2, h3, h4, specStrategySplit]

/-- C4: whenever the final-answer marker regex matches (first match at
index `i` with length `len`), the parse is exactly: the text after the
marker — with leading colons, asterisks and whitespace stripped, then
trimmed — as the final answer, and the trimmed text before the marker as
the text from which the steps are extracted. -/
theorem parseResult_finalAnswer_extraction (text : String) (i len : Nat)
    (h0 : text ≠ "")
    (h1 : findFrom markerFinalLen text.data = some (i, len)) :
    parseResult text =
      some (assemble (trimL (stripAnswerLead (text.data.drop (i + len))))
                     (contentToParse (trimL (text.data.take i)))) ∧
    ∀ p, parseResult text = some p →
      p.finalAnswer =
        String.mk (trimL (stripAnswerLead (text.data.drop (i + len)))) := by
  have hfs : finalSplit text.data =
      (trimL (stripAnswerLead (text.data.drop (i + len))),
       trimL (text.data.take i)) := by
    unfold finalSplit
    rw [h1]
  have hmain := parseResult_eq_assemble text h0
  rw [hfs] at hmain
  refine ⟨hmain, fun p hp => ?_⟩
  rw [hmain] at hp
  injection hp with hp
  rw [← hp]
  exact assemble_finalAnswer _ _

/-- Witness for C4 at the input "##Final Answer: 7" (marker at index 0,
match length 14). -/
theorem parseResult_finalAnswer_extraction_witness :
    parseResult "##Final Answer: 7" =
      some (assemble (trimL (stripAnswerLead (("##Final Answer: 7").data.drop (0 + 14))))
                     (contentToParse (trimL (("##Final Answer: 7").data.take 0)))) ∧
    ∀ p, parseResult "##Final Answer: 7" = some p →
      p.finalAnswer =
        String.mk (trimL (stripAnswerLead (("##Final Answer: 7").data.drop (0 + 14)))) :=
  parseResult_finalAnswer_extraction "##Final Answer: 7" 0 14 (by decide) (by decide)

/-- C7 counterexample: on "1. Alpha\n2. beta" the numbered heuristic is
the one selected, yet the content is also split before "2. beta", a line
that does not begin with digits, a period, whitespace and an UPPERCASE
letter — refuting "split ... at no other points". -/
theorem smartSplit_numbered_uppercase_counterexample :
    specSelectStrategy ("1. Alpha\n2. beta").data = StepStrategy.numbered ∧
    smartSplit ("1. Alpha\n2. beta").data = ["1. Alpha".data, "2. beta".data] ∧
    laNumTest "2. beta".data = false := by
  decide

/-- C7 amended: when the numbered-list heuristic is selected, the split
points are the lines beginning with digits, a period and whitespace —
the uppercase letter is required only by the trigger test, not at each
split point. -/
theorem smartSplit_numbered_boundaries (c : List Char)
    (h : specSelectStrategy c = StepStrategy.numbered) :
    smartSplit c = keepNonBlank (splitLA laNumSplit c) := by
  unfold specSelectStrategy at h
  split at h
  · cases h
  · split at h
    · cases h
    · split at h
      · cases h
      · split at h
        · rename_i hh hb hs hn
          unfold smartSplit
          rw [if_neg hh, if_neg hb, if_neg hs, if_pos hn]
        · cases h

/-- Witness for C7's amended claim at the counterexample input. -/
theorem smartSplit_numbered_boundaries_witness :
    smartSplit ("1. Alpha\n2. beta").data =
      keepNonBlank (splitLA laNumSplit ("1. Alpha\n2. beta").data) :=
  smartSplit_numbered_boundaries ("1. Alpha\n2. beta").data (by decide)

/-! ### Whitespace lemmas for C9 -/

theorem ws_elim {c : Char} (h : isWS c = true) :
    c = ' ' ∨ c = '\t' ∨ c = '\n' ∨ c = '\r' ∨ c = '\x0b' ∨ c = '\x0c' := by
  simp only [isWS, Bool.or_eq_true, beq_iff_eq] at h
  tauto

theorem markerFinalLen_ws {t : List Char} (h : ∀ c ∈ t, isWS c = true) :
    markerFinalLen t = none := by
  cases t with
  | nil => rfl
  | cons c1 t1 =>
    cases t1 with
    | nil => rfl
    | cons c2 rest =>
      rcases ws_elim (h c1 (by simp)) with h1 | h1 | h1 | h1 | h1 | h1 <;>
        subst h1 <;> rfl

theorem markerStepsLen_ws {t : List Char} (h : ∀ c ∈ t, isWS c = true) :
    markerStepsLen t = none := by
  cases t with
  | nil => rfl
  | cons c1 t1 =>
    cases t1 with
    | nil => rfl
    | cons c2 rest =>
      rcases ws_elim (h c1 (by simp)) with h1 | h1 | h1 | h1 | h1 | h1 <;>
        subst h1 <;> rfl

theorem findFrom_none {f : List Char → Option Nat}
    (hf : ∀ t : List Char, (∀ c ∈ t, isWS c = true) → f t = none) :
    ∀ l : List Char, (∀ c ∈ l, isWS c = true) → findFrom f l = none := by
  intro l
  induction l with
  | nil =>
    intro h
    unfold findFrom
    rw [hf [] (by simp)]
    rfl
  | cons c rest ih =>
    intro h
    unfold findFrom
    rw [hf (c :: rest) h, ih (fun x hx => h x (by simp [hx]))]
    rfl

theorem laHeading_ws {t : List Char} (h : ∀ c ∈ t, isWS c = true) :
    laHeading t = false := by
  cases t with
  | nil => rfl
  | cons c1 t1 =>
    cases t1 with
    | nil => rfl
    | cons c2 t2 =>
      cases t2 with
      | nil => rfl
      | cons c3 t3 =>
        cases t3 with
        | nil => rfl
        | cons c4 t4 =>
          rcases ws_elim (h c1 (by simp)) with h1 | h1 | h1 | h1 | h1 | h1 <;>
            subst h1 <;> rfl

theorem laBold_ws {t : List Char} (h : ∀ c ∈ t, isWS c = true) :
    laBold t = false := by
  cases t with
  | nil => rfl
  | cons c1 t1 =>
    cases t1 with
    | nil => rfl
    | cons c2 rest =>
      rcases ws_elim (h c1 (by simp)) with h1 | h1 | h1 | h1 | h1 | h1 <;>
        subst h1 <;> rfl

theorem laStepN_ws {t : List Char} (h : ∀ c ∈ t, isWS c = true) :
    laStepN t = false := by
  cases t with
  | nil => rfl
  | cons c1 rest =>
    rcases ws_elim (h c1 (by simp)) with h1 | h1 | h1 | h1 | h1 | h1 <;>
      subst h1 <;> rfl

theorem laNumTest_ws {t : List Char} (h : ∀ c ∈ t, isWS c = true) :
    laNumTest t = false := by
  cases t with
  | nil => rfl
  | cons c1 rest =>
    rcases ws_elim (h c1 (by simp)) with h1 | h1 | h1 | h1 | h1 | h1 <;>
      subst h1 <;> rfl

theorem testLine_ws {P : List Char → Bool}
    (hP : ∀ t : List Char, (∀ c ∈ t, isWS c = true) → P t = false)
    {l : List Char} (h : ∀ c ∈ l, isWS c = true) : testLine P l = false := by
  have aux : ∀ t : List Char, (∀ c ∈ t, isWS c = true) → testAfterNl P t = false := by
    intro t
    induction t with
    | nil => intro _; rfl
    | cons c rest ih =>
      intro ht
      have hr : ∀ x ∈ rest, isWS x = true := fun x hx => ht x (by simp [hx])
      simp [testAfterNl, hP rest hr, ih hr]
  simp [testLine, hP l h, aux l h]

theorem trimL_ws {l : List Char} (h : ∀ c ∈ l, isWS c = true) : trimL l = [] := by
  unfold trimL
  rw [List.dropWhile_eq_nil_iff.mpr h]
  simp

theorem smartSplit_ws {l : List Char} (h : ∀ c ∈ l, isWS c = true) :
    smartSplit l = [l] := by
  have t1 : testLine laHeading l = false := testLine_ws (fun t ht => laHeading_ws ht) h
  have t2 : testLine laBold l = false := testLine_ws (fun t ht => laBold_ws ht) h
  have t3 : testLine laStepN l = false := testLine_ws (fun t ht => laStepN_ws ht) h
  have t4 : testLine laNumTest l = false := testLine_ws (fun t ht => laNumTest_ws ht) h
  unfold smartSplit
  simp [t1, t2, t3, t4]

/-- C9: a non-empty but all-whitespace input does not give null — the
null boundary is emptiness, not blankness — and parses to the fallback
result with no steps and no final answer. -/
theorem parseResult_blank_input (text : String) (h0 : text ≠ "")
    (hws : ∀ c ∈ text.data, isWS c = true) :
    parseResult text = some ⟨[], "", true⟩ := by
  have hmain := parseResult_eq_assemble text h0
  have hff : findFrom markerFinalLen text.data = none :=
    findFrom_none (fun t ht => markerFinalLen_ws ht) text.data hws
  have hfs : finalSplit text.data = ([], text.data) := by
    unfold finalSplit
    rw [hff]
  have hsf : findFrom markerStepsLen text.data = none :=
    findFrom_none (fun t ht => markerStepsLen_ws ht) text.data hws
  have hcp : contentToParse text.data = text.data := by
    unfold contentToParse
    rw [hsf]
  have htr : trimL text.data = [] := trimL_ws hws
  have hhd : headerOf text.data = [] := by
    unfold headerOf
    rw [htr]
    rfl
  have hbd : bodyOf text.data = [] := by
    unfold bodyOf
    rw [htr]
    rfl
  have hps : processStep text.data = ("Step Details".data, []) := by
    unfold processStep
    rw [hhd, hbd]
    rfl
  have hex : extractSteps text.data = [] := by
    unfold extractSteps
    rw [smartSplit_ws hws]
    simp [hps]
  have has : assemble [] text.data = ⟨[], "", true⟩ := by
    unfold assemble
    rw [hex, htr]
    rfl
  rw [hmain]
  have : assemble (finalSplit text.data).1
      (contentToParse (finalSplit text.data).2) = ⟨[], "", true⟩ := by
    rw [hfs]
    show assemble [] (contentToParse text.data) = _
    rw [hcp, has]
  rw [this]

/-- Witness for C9 at the single-space input. -/
theorem parseResult_blank_input_witness :
    parseResult " " = some ⟨[], "", true⟩ :=
  parseResult_blank_input " " (by decide) (by decide)

/-! ### Trim and line lemmas for C6 -/

theorem dropWhile_eq_self_of_isPrefix {p : Char → Bool} {a b : List Char}
    (ha : a.dropWhile p = a) (hb : b <+: a) : b.dropWhile p = b := by
  cases b with
  | nil => rfl
  | cons c cs =>
    obtain ⟨r, hr⟩ := hb
    have hpc : p c = false := by
      cases hpc' : p c with
      | false => rfl
      | true =>
        exfalso
        rw [← hr, List.cons_append] at ha
        rw [List.dropWhile_cons_of_pos hpc'] at ha
        have hlen := congrArg List.length ha
        have hle : ((cs ++ r).dropWhile p).length ≤ (cs ++ r).length :=
          (List.dropWhile_suffix p).sublist.length_le
        simp only [List.length_cons] at hlen
        omega
    exact List.dropWhile_cons_of_neg (by simp [hpc])

theorem trimL_idem (l : List Char) : trimL (trimL l) = trimL l := by
  unfold trimL
  have ha2 : (l.dropWhile isWS).dropWhile isWS = l.dropWhile isWS :=
    List.dropWhile_idempotent isWS l
  have hb : List.rdropWhile isWS (l.dropWhile isWS) <+: l.dropWhile isWS :=
    List.rdropWhile_prefix isWS (l.dropWhile isWS)
  rw [dropWhile_eq_self_of_isPrefix ha2 hb, List.rdropWhile_idempotent]

theorem trimL_sublist (l : List Char) : (trimL l).Sublist l := by
  have h1 : (l.dropWhile isWS).Sublist l := (List.dropWhile_suffix isWS).sublist
  have h2 : trimL l <+: l.dropWhile isWS := List.rdropWhile_prefix isWS _
  exact h2.sublist.trans h1

theorem splitNl_single {l : List Char} (h : ∀ c ∈ l, (c == '\n') = false) :
    splitNl l = [l] := by
  induction l with
  | nil => rfl
  | cons c rest ih =>
    have hc := h c (by simp)
    have hr : ∀ x ∈ rest, (x == '\n') = false := fun x hx => h x (by simp [hx])
    unfold splitNl
    rw [hc]
    simp [ih hr]

/-- C6 counterexample: on the single unstructured paragraph
"It is simple." the parser does not produce an "Analysis" step — the
single block goes through per-step normalisation, which demotes the
header to the content under the title "Explanation". -/
theorem parseResult_single_paragraph_counterexample :
    parseResult "It is simple." ≠
      some ⟨[⟨"Analysis", "It is simple."⟩], "", false⟩ := by
  decide

/-- C6 amended: for a non-empty single-line input with no final-answer
marker, no solution-steps heading, none of the four step-trigger
patterns, no leading level-3 heading, no bold markers and no recognised
step/number prefix, the parser returns exactly one step titled
"Explanation" whose content is the trimmed paragraph, with an empty
final answer and no fallback. -/
theorem parseResult_single_line_explanation (text : String)
    (h0 : text ≠ "")
    (h1 : findFrom markerFinalLen text.data = none)
    (h2 : findFrom markerStepsLen text.data = none)
    (h3 : testLine laHeading text.data = false)
    (h4 : testLine laBold text.data = false)
    (h5 : testLine laStepN text.data = false)
    (h6 : testLine laNumTest text.data = false)
    (h7 : ∀ c ∈ text.data, (c == '\n') = false)
    (h8 : stripHeading (trimL text.data) = trimL text.data)
    (h9 : removeBoldAll (trimL text.data) = trimL text.data)
    (h10 : prefixLen (trimL text.data) = none)
    (h11 : trimL text.data ≠ []) :
    parseResult text =
      some ⟨[⟨"Explanation", String.mk (trimL text.data)⟩], "", false⟩ := by
  have hmain := parseResult_eq_assemble text h0
  have hfs : finalSplit text.data = ([], text.data) := by
    unfold finalSplit
    rw [h1]
  have hcp : contentToParse text.data = text.data := by
    unfold contentToParse
    rw [h2]
  have hsm : smartSplit text.data = [text.data] := by
    unfold smartSplit
    simp [h3, h4, h5, h6]
  have h7t : ∀ c ∈ trimL text.data, (c == '\n') = false :=
    fun c hc => h7 c ((trimL_sublist text.data).subset hc)
  have hspl : splitNl (trimL text.data) = [trimL text.data] := splitNl_single h7t
  have hie : (trimL text.data).isEmpty = false := by
    simp only [Bool.eq_false_iff, ne_eq, List.isEmpty_iff]
    exact h11
  have hhd : headerOf text.data = trimL text.data := by
    unfold headerOf
    rw [hspl]
    show trimL (trimL text.data) = _
    exact trimL_idem _
  have hbd : bodyOf text.data = [] := by
    unfold bodyOf
    rw [hspl]
    rfl
  have hct : cleanTitle (headerOf text.data) = trimL text.data := by
    unfold cleanTitle
    rw [hhd, h8, h9]
    simp only [h10]
  have hps : processStep text.data = ("Explanation".data, trimL text.data) := by
    unfold processStep
    rw [hct, hbd, hie]
    rfl
  have hex : extractSteps text.data =
      [("Explanation".data, trimL text.data)] := by
    unfold extractSteps
    rw [hsm]
    simp [hps, hie]
  rw [hmain]
  have : assemble (finalSplit text.data).1
      (contentToParse (finalSplit text.data).2) =
      ⟨[⟨"Explanation", String.mk (trimL text.data)⟩], "", false⟩ := by
    rw [hfs]
    show assemble [] (contentToParse text.data) = _
    rw [hcp]
    unfold assemble
    rw [hex]
    rfl
  rw [this]

/-- Witness for C6's amended claim at "It is simple.". -/
theorem parseResult_single_line_explanation_witness :
    parseResult "It is simple." =
      some ⟨[⟨"Explanation", String.mk (trimL ("It is simple.").data)⟩], "", false⟩ :=
  parseResult_single_line_explanation "It is simple." (by decide) (by decide)
    (by decide) (by decide) (by decide) (by decide) (by decide) (by decide)
    (by decide) (by decide) (by decide) (by decide)

end MathMaster
